import Mathlib

/-!
Shallow embedding of the `freeval` declarative field-validation library
(`src/lib.rs`, `src/validators/mod.rs`).

Conventions of the embedding:
* `serde_json::Value` is modelled by the inductive `Json`; Rust strings are
  lists of characters and `str::len` (UTF-8 byte length) is `strBytes`.
* A Rust panic (the `expect("failed to extract result")` in `extract_value`,
  reached when `serde_json::from_value` cannot coerce a value to the type a
  checker asks for) is modelled as `Except.error "failed to extract result"`;
  all checkers and the evaluation loop therefore live in `Except String`.
* The character classification functions of the Rust standard library
  (`char::is_whitespace`, `is_lowercase`, `is_uppercase`, `is_digit(10)`,
  `is_ascii_alphanumeric`) are modelled on the ASCII range, where they agree
  exactly with Rust; the full Unicode tables are outside the embedding.
* `serde_json::Map` / `std::collections::HashMap` are modelled as association
  lists with `get` / replace-or-append `insert` (`getA` / `insertA`), which
  matches the maps' lookup and insertion semantics.
-/

/-- Model of `serde_json::Value`.  Numbers are modelled as integers (the
library's size checkers only ever extract `isize`). -/
inductive Json where
  | null : Json
  | bool (b : Bool) : Json
  | num (n : Int) : Json
  | str (s : List Char) : Json
  | arr (elems : List Json) : Json
  | obj (fields : List (String × Json)) : Json

/-- Model of `serde_json::Value::is_null`. -/
def Json.isNull : Json → Bool
  | Json.null => true
  | _ => false

/-- Shape test used in hypotheses: is this value a JSON string? -/
def Json.isStr : Json → Bool
  | Json.str _ => true
  | _ => false

/-- Mirrors the `if let Ok(serde_json::Value::Object(map))` test at the top of
`FreeVal::validate`; `none` models `serde_json::to_value` returning `Err`. -/
def convertsToObject : Option Json → Bool
  | some (Json.obj _) => true
  | _ => false

/-- Model of `enum LengthType` from `src/validators/mod.rs`. -/
inductive LengthType where
  | Exact : LengthType
  | Max : LengthType
  | Min : LengthType

/-- Model of `LengthType::to_string`. -/
def LengthType.to_string : LengthType → String
  | LengthType.Exact => "exactly"
  | LengthType.Max => "maximum of"
  | LengthType.Min => "minimum of"

/-- Model of `enum RangeType` from `src/validators/mod.rs`. -/
inductive RangeType where
  | Size : RangeType
  | Length : RangeType

/-- Model of `RangeType::to_string`. -/
def RangeType.to_string : RangeType → String
  | RangeType.Size => "size"
  | RangeType.Length => "length"

/-- Model of `struct InnerValidationResult(pub bool, pub String)`: a verdict
plus the checker's default message. -/
structure InnerValidationResult where
  status : Bool
  msg : String
  deriving DecidableEq

/-- Model of `enum ValidatorRule` from `src/lib.rs`.  `usize` parameters are
`Nat`, `isize` parameters are `Int`, the `Contains` payload is a string. -/
inductive ValidatorRule where
  | Length (n : Nat) : ValidatorRule
  | MaxLength (n : Nat) : ValidatorRule
  | MinLength (n : Nat) : ValidatorRule
  | Size (n : Int) : ValidatorRule
  | MaxSize (n : Int) : ValidatorRule
  | MinSize (n : Int) : ValidatorRule
  | Bool : ValidatorRule
  | Password (min_len : Nat) : ValidatorRule
  | Required : ValidatorRule
  | Email : ValidatorRule
  | LengthRange (mn mx : Int) : ValidatorRule
  | SizeRange (mn mx : Int) : ValidatorRule
  | Contains (sub : List Char) : ValidatorRule

/-- Model of `struct RuleType(ValidatorRule, ValidatorErrorType)`: a rule and
its optional user-defined error message. -/
structure RuleType where
  rule : ValidatorRule
  error : Option String

/-- Model of `struct RuleDeclaration { field, rules }`. -/
structure RuleDeclaration where
  field : String
  rules : List RuleType

/-- Model of `type ValidationErrors = HashMap<String, Vec<String>>` as an
association list. -/
def ValidationErrors : Type := List (String × List String)

/-- Model of `Result<(), ValidationErrors>`, the return type of
`FreeVal::validate`. -/
inductive VResult where
  | ok : VResult
  | err (errors : List (String × List String)) : VResult
  deriving DecidableEq

/-- Rust `str::len`: the UTF-8 byte length of the string. -/
def strBytes (s : List Char) : Nat := (s.map Char.utf8Size).sum

/-- Rust `char::is_digit(10)` (ASCII decimal digits). -/
def rustIsDigit10 (c : Char) : Bool := decide ('0' ≤ c) && decide (c ≤ '9')

/-- Rust `char::is_lowercase`, modelled on the ASCII range (where it is
exactly `'a'..='z'`). -/
def rustIsLowercase (c : Char) : Bool := decide ('a' ≤ c) && decide (c ≤ 'z')

/-- Rust `char::is_uppercase`, modelled on the ASCII range (where it is
exactly `'A'..='Z'`). -/
def rustIsUppercase (c : Char) : Bool := decide ('A' ≤ c) && decide (c ≤ 'Z')

/-- Rust `char::is_whitespace`, modelled on the ASCII range: space, tab, line
feed, vertical tab, form feed and carriage return. -/
def rustIsWhitespace (c : Char) : Bool :=
  c == ' ' || c == '\t' || c == '\n' || c == Char.ofNat 11 || c == Char.ofNat 12 || c == '\r'

/-- Rust `char::is_ascii_alphanumeric`: an ASCII letter or an ASCII digit. -/
def rustIsAsciiAlphanumeric (c : Char) : Bool :=
  rustIsUppercase c || rustIsLowercase c || rustIsDigit10 c

/-- Model of `extract_value::<String>`: `serde_json::from_value` succeeds only
on a JSON string; anything else is the `expect` panic. -/
def extractString : Json → Except String (List Char)
  | Json.str s => Except.ok s
  | _ => Except.error "failed to extract result"

/-- Model of `extract_value::<isize>`: succeeds only on a JSON number. -/
def extractInt : Json → Except String Int
  | Json.num n => Except.ok n
  | _ => Except.error "failed to extract result"

/-- Model of `extract_value::<bool>`: succeeds only on a JSON boolean. -/
def extractBool : Json → Except String Bool
  | Json.bool b => Except.ok b
  | _ => Except.error "failed to extract result"

/-- Model of `check_len`: compares the rule parameter against the measured
value according to the kind of length check. -/
def check_len {α : Type} [LinearOrder α] (rule vlen : α) (length_type : LengthType) : Bool :=
  match length_type with
  | LengthType.Max => decide (rule ≥ vlen)
  | LengthType.Min => decide (rule ≤ vlen)
  | LengthType.Exact => decide (rule = vlen)

/-- Default message of the `length` checker. -/
def lengthErr (field : String) (rule : Nat) (length_type : LengthType) : String :=
  let lts := length_type.to_string
  s!"'{field}' field must be {lts} {rule} characters."

/-- Model of the `length` checker: null fails, a non-string panics, otherwise
the string's byte length is compared against the rule parameter. -/
def length (field : String) (rule : Nat) (value : Json) (length_type : LengthType) :
    Except String InnerValidationResult :=
  let err := lengthErr field rule length_type
  if value.isNull then Except.ok ⟨false, err⟩
  else
    match extractString value with
    | Except.error e => Except.error e
    | Except.ok v => Except.ok ⟨check_len rule (strBytes v) length_type, err⟩

/-- Default message of the `size` checker. -/
def sizeErr (field : String) (rule : Int) (length_type : LengthType) : String :=
  let lts := length_type.to_string
  s!"'{field}' field must be {lts} {rule}."

/-- Model of the `size` checker: null fails, a non-number panics, otherwise
the integer is compared against the rule parameter. -/
def size (field : String) (rule : Int) (value : Json) (length_type : LengthType) :
    Except String InnerValidationResult :=
  let err := sizeErr field rule length_type
  if value.isNull then Except.ok ⟨false, err⟩
  else
    match extractInt value with
    | Except.error e => Except.error e
    | Except.ok v => Except.ok ⟨check_len rule v length_type, err⟩

/-- Default message of the `required` checker. -/
def requiredErr (field : String) : String := s!"'{field}' field cannot be null."

/-- Model of the `required` checker: the verdict is `!value.is_null()`. -/
def required (field : String) (value : Json) : Except String InnerValidationResult :=
  Except.ok ⟨!value.isNull, requiredErr field⟩

/-- Default message of the `check_bool` checker (the typo is the source's). -/
def boolErr (field : String) : String := s!"'{field}' field's condition must be satified."

/-- Model of `check_bool`.  Note that unlike every other checker it has no
null guard: the value is coerced to `bool` first, so a null (or any non
boolean) value hits the `expect` panic of `extract_value`. -/
def check_bool (field : String) (value : Json) : Except String InnerValidationResult :=
  match extractBool value with
  | Except.error e => Except.error e
  | Except.ok v => Except.ok ⟨v, boolErr field⟩

/-- Accumulator of the character-scanning loop in `password`. -/
structure PassFlags where
  has_whitespace : Bool
  has_upper : Bool
  has_lower : Bool
  has_digit : Bool
  has_special_char : Bool
  deriving DecidableEq

/-- One step of the `for c in v.chars()` loop in `password`. -/
def passStep (acc : PassFlags) (c : Char) : PassFlags :=
  { has_whitespace := acc.has_whitespace || rustIsWhitespace c
    has_lower := acc.has_lower || rustIsLowercase c
    has_upper := acc.has_upper || rustIsUppercase c
    has_digit := acc.has_digit || rustIsDigit10 c
    has_special_char := acc.has_special_char || !rustIsAsciiAlphanumeric c }

/-- Default message of the `password` checker. -/
def passwordErr (field : String) (len : Nat) : String :=
  s!"'{field}' field must contain at least one uppercase letter, one lowercase letter, one digit and one special character and must be at least {len} chars long."

/-- Model of the `password` checker: null fails, a non-string panics,
otherwise a single pass over the characters collects the five flags and the
verdict is their combination together with the byte-length bound. -/
def password (field : String) (value : Json) (len : Nat) :
    Except String InnerValidationResult :=
  let err := passwordErr field len
  if value.isNull then Except.ok ⟨false, err⟩
  else
    match extractString value with
    | Except.error e => Except.error e
    | Except.ok v =>
      let flags := v.foldl passStep ⟨false, false, false, false, false⟩
      let cond := !flags.has_whitespace && flags.has_upper && flags.has_lower &&
        flags.has_digit && flags.has_special_char && decide (strBytes v ≥ len)
      Except.ok ⟨cond, err⟩

/-- Character class `[A-Za-z0-9._%+-]` of the email regex. -/
def isLocalChar (c : Char) : Bool :=
  rustIsAsciiAlphanumeric c || c == '.' || c == '_' || c == '%' || c == '+' || c == '-'

/-- Character class `[A-Za-z0-9.-]` of the email regex. -/
def isDomainChar (c : Char) : Bool :=
  rustIsAsciiAlphanumeric c || c == '.' || c == '-'

/-- Anchored match of `^[A-Za-z0-9._%+-]+@[A-Za-z0-9.-]+\.[A-Za-z]{2,}$`:
some decomposition local `@` domain `.` tld with the three parts in their
character classes, the first two non-empty and the tld at least two letters. -/
def emailMatch (s : List Char) : Bool :=
  (List.range s.length).any fun i =>
    (List.range s.length).any fun j =>
      decide (i < j) && (s.get? i == some '@') && (s.get? j == some '.') &&
      (let lp := s.take i
       let dom := (s.drop (i + 1)).take (j - i - 1)
       let tld := s.drop (j + 1)
       !lp.isEmpty && lp.all isLocalChar && !dom.isEmpty && dom.all isDomainChar &&
         decide (2 ≤ tld.length) &&
         tld.all fun c => rustIsUppercase c || rustIsLowercase c)

/-- Default message of the `email` checker. -/
def emailErr (field : String) : String := s!"'{field}' field must be a valid email address"

/-- Model of the `email` checker. -/
def email (field : String) (value : Json) : Except String InnerValidationResult :=
  let err := emailErr field
  if value.isNull then Except.ok ⟨false, err⟩
  else
    match extractString value with
    | Except.error e => Except.error e
    | Except.ok v => Except.ok ⟨emailMatch v, err⟩

/-- Default message of the `range` checker (no quotes around the field name in
the source's `format!`). -/
def rangeErr (field : String) (mn mx : Int) (range_type : RangeType) : String :=
  let rts := range_type.to_string
  s!"{field}'s {rts} must be between {mn} and {mx}."

/-- Model of the `range` checker, instantiated (as in `validate`) at
`T = isize`: null fails, otherwise the measured quantity — byte length of the
coerced string for `RangeType::Length`, the coerced integer for
`RangeType::Size` — must be strictly between `mn` and `mx`. -/
def range (field : String) (value : Json) (mn mx : Int) (range_type : RangeType) :
    Except String InnerValidationResult :=
  let err := rangeErr field mn mx range_type
  if value.isNull then Except.ok ⟨false, err⟩
  else
    match range_type with
    | RangeType.Length =>
      match extractString value with
      | Except.error e => Except.error e
      | Except.ok val =>
        let len : Int := Int.ofNat (strBytes val)
        Except.ok ⟨decide (len > mn) && decide (len < mx), err⟩
    | RangeType.Size =>
      match extractInt value with
      | Except.error e => Except.error e
      | Except.ok len => Except.ok ⟨decide (len > mn) && decide (len < mx), err⟩

/-- Rust `str::contains`: some drop of the string starts with `sub`. -/
def strContains (v sub : List Char) : Bool :=
  (List.range (v.length + 1)).any fun i => decide ((v.drop i).take sub.length = sub)

/-- Default message of the `contains` checker (the double space is the
source's). -/
def containsErr (field : String) (rule : List Char) : String :=
  let rs := String.mk rule
  s!"'{field}' field must contain  '{rs}'. Please check again."

/-- Model of the `contains` checker. -/
def contains (field : String) (rule : List Char) (value : Json) :
    Except String InnerValidationResult :=
  let err := containsErr field rule
  if value.isNull then Except.ok ⟨false, err⟩
  else
    match extractString value with
    | Except.error e => Except.error e
    | Except.ok v => Except.ok ⟨strContains v rule, err⟩

/-- The exhaustive `match rule` dispatch inside `FreeVal::validate`. -/
def applyRule (key : String) (rule : ValidatorRule) (val : Json) :
    Except String InnerValidationResult :=
  match rule with
  | ValidatorRule.Length n => length key n val LengthType.Exact
  | ValidatorRule.MaxLength n => length key n val LengthType.Max
  | ValidatorRule.MinLength n => length key n val LengthType.Min
  | ValidatorRule.Size n => size key n val LengthType.Exact
  | ValidatorRule.MaxSize n => size key n val LengthType.Max
  | ValidatorRule.MinSize n => size key n val LengthType.Min
  | ValidatorRule.Bool => check_bool key val
  | ValidatorRule.Password min_len => password key val min_len
  | ValidatorRule.Required => required key val
  | ValidatorRule.Email => email key val
  | ValidatorRule.LengthRange mn mx => range key val mn mx RangeType.Length
  | ValidatorRule.SizeRange mn mx => range key val mn mx RangeType.Size
  | ValidatorRule.Contains sub => contains key sub val

/-- `HashMap::get` on the association-list model. -/
def getA (errs : List (String × List String)) (k : String) : Option (List String) :=
  match errs with
  | [] => none
  | (k', v) :: rest => if k' = k then some v else getA rest k

/-- `HashMap::insert` on the association-list model: replace the existing
entry or append a new one. -/
def insertA (errs : List (String × List String)) (k : String) (v : List String) :
    List (String × List String) :=
  match errs with
  | [] => [(k, v)]
  | (k', v') :: rest => if k' = k then (k', v) :: rest else (k', v') :: insertA rest k v

/-- Model of `FreeVal::add_error`: start from the default message, override it
with the user-defined one when present, and push the single result. -/
def add_error (defined_err : Option String) (default_err : String)
    (error_list : List String) : List String :=
  let error := match defined_err with
    | some err => err
    | none => default_err
  error_list ++ [error]

/-- The failure-recording block of `FreeVal::validate`: initialize the field's
entry if absent, then re-read it and store the extended list. -/
def recordError (key : String) (defined_err : Option String) (default_err : String)
    (result_errs : List (String × List String)) : List (String × List String) :=
  let errs1 := if (getA result_errs key).isNone then insertA result_errs key [] else result_errs
  match getA errs1 key with
  | some error_list => insertA errs1 key (add_error defined_err default_err error_list)
  | none => errs1

/-- The innermost loop of `FreeVal::validate`: evaluate each rule bound to
`key` in order, recording a message for every failing verdict; a checker panic
aborts the whole run. -/
def runRules (key : String) (value : Json) (rules : List RuleType)
    (result_errs : List (String × List String)) :
    Except String (List (String × List String)) :=
  match rules with
  | [] => Except.ok result_errs
  | rt :: rest =>
    match applyRule key rt.rule value with
    | Except.error e => Except.error e
    | Except.ok r =>
      if r.status then runRules key value rest result_errs
      else runRules key value rest (recordError key rt.error r.msg result_errs)

/-- The middle loop of `FreeVal::validate`: scan all declarations and run the
rules of those whose field matches `key`. -/
def runDecls (key : String) (value : Json) (decls : List RuleDeclaration)
    (result_errs : List (String × List String)) :
    Except String (List (String × List String)) :=
  match decls with
  | [] => Except.ok result_errs
  | d :: rest =>
    if d.field = key then
      match runRules key value d.rules result_errs with
      | Except.error e => Except.error e
      | Except.ok errs => runDecls key value rest errs
    else runDecls key value rest result_errs

/-- The outer loop of `FreeVal::validate`: one pass per field of the converted
object. -/
def runFields (map : List (String × Json)) (decls : List RuleDeclaration)
    (result_errs : List (String × List String)) :
    Except String (List (String × List String)) :=
  match map with
  | [] => Except.ok result_errs
  | (key, value) :: rest =>
    match runDecls key value decls result_errs with
    | Except.error e => Except.error e
    | Except.ok errs => runFields rest decls errs

/-- Model of `FreeVal::validate`.  `data` is the result of
`serde_json::to_value(self.data)` (`none` models `Err`); only an object-shaped
value is scanned, and the run returns `Err(result_errs)` exactly when the
accumulated error map is non-empty. -/
def validate (data : Option Json) (declarations : List RuleDeclaration) :
    Except String VResult :=
  match data with
  | some (Json.obj map) =>
    match runFields map declarations [] with
    | Except.error e => Except.error e
    | Except.ok result_errs =>
      Except.ok (if result_errs.isEmpty then VResult.ok else VResult.err result_errs)
  | _ => Except.ok VResult.ok

/-- Verdict and recorded message (user-defined message preferred over the
checker default) of one binding, `none` when the checker panics. -/
def ruleOutcome (key : String) (value : Json) (rt : RuleType) : Option (Bool × String) :=
  match applyRule key rt.rule value with
  | Except.ok r => some (r.status, Option.getD rt.error r.msg)
  | Except.error _ => none

/-- Messages recorded for the failing bindings of one rule list, in binding
order. -/
def failMsgs (key : String) (value : Json) : List RuleType → List String
  | [] => []
  | rt :: rest =>
    (match ruleOutcome key value rt with
     | some (false, m) => [m]
     | _ => []) ++ failMsgs key value rest

/-- Messages recorded for field `key` across a declaration list, in
declaration order. -/
def declsFailMsgs (key : String) (value : Json) : List RuleDeclaration → List String
  | [] => []
  | d :: rest =>
    (if d.field = key then failMsgs key value d.rules else []) ++ declsFailMsgs key value rest

/-- A binding's verdict as a plain boolean (a panicking checker counts as not
passing). -/
def bindingPasses (key : String) (value : Json) (rt : RuleType) : Bool :=
  match applyRule key rt.rule value with
  | Except.ok r => r.status
  | Except.error _ => false

/-- All bindings of one declaration pass for the given field value (vacuously
true for declarations of other fields). -/
def declPasses (key : String) (value : Json) (d : RuleDeclaration) : Bool :=
  if d.field = key then d.rules.all (bindingPasses key value) else true

/-- The logical AND of all per-binding verdicts across all matched fields. -/
def allPass (map : List (String × Json)) (decls : List RuleDeclaration) : Bool :=
  map.all fun kv => decls.all (declPasses kv.1 kv.2)

/-- Errors recorded for one field in a validation outcome. -/
def errorsFor : VResult → String → Option (List String)
  | VResult.ok, _ => none
  | VResult.err m, f => getA m f

/-! ### Helper lemmas about the association-list map -/

theorem getA_insertA_self (errs : List (String × List String)) (k : String) (v : List String) :
    getA (insertA errs k v) k = some v := by
  induction errs with
  | nil => simp [insertA, getA]
  | cons kv rest ih =>
    obtain ⟨k', v'⟩ := kv
    by_cases h : k' = k
    · simp [insertA, getA, h]
    · simp [insertA, getA, h, ih]

theorem getA_insertA_ne (errs : List (String × List String)) (k k' : String) (v : List String)
    (h : k' ≠ k) : getA (insertA errs k v) k' = getA errs k' := by
  induction errs with
  | nil =>
    show getA [(k, v)] k' = getA [] k'
    simp [getA, Ne.symm h]
  | cons kv rest ih =>
    obtain ⟨k0, v0⟩ := kv
    by_cases h0 : k0 = k
    · subst h0
      show getA (if k0 = k0 then (k0, v) :: rest else (k0, v0) :: insertA rest k0 v) k' = _
      rw [if_pos rfl]
      simp [getA, Ne.symm h]
    · show getA (if k0 = k then (k0, v) :: rest else (k0, v0) :: insertA rest k v) k' = _
      rw [if_neg h0]
      by_cases h1 : k0 = k'
      · simp [getA, h1]
      · simp [getA, h1, ih]

theorem add_error_eq (defined_err : Option String) (default_err : String)
    (error_list : List String) :
    add_error defined_err default_err error_list =
      error_list ++ [Option.getD defined_err default_err] := by
  cases defined_err <;> rfl

theorem insertA_insertA (errs : List (String × List String)) (k : String)
    (v w : List String) : insertA (insertA errs k v) k w = insertA errs k w := by
  induction errs with
  | nil => simp [insertA]
  | cons kv rest ih =>
    obtain ⟨k0, v0⟩ := kv
    by_cases h0 : k0 = k
    · simp [insertA, h0]
    · simp [insertA, h0, ih]

theorem recordError_eq (key : String) (de : Option String) (df : String)
    (errs : List (String × List String)) :
    recordError key de df errs =
      insertA errs key (Option.getD (getA errs key) [] ++ [Option.getD de df]) := by
  unfold recordError
  cases hg : getA errs key with
  | none =>
    simp only [Option.isNone_none, eq_self_iff_true, if_true]
    rw [getA_insertA_self]
    show insertA (insertA errs key []) key (add_error de df []) = _
    rw [insertA_insertA, add_error_eq]
    rfl
  | some l =>
    simp only [Option.isNone_some, Bool.false_eq_true, if_false]
    rw [hg]
    show insertA errs key (add_error de df l) = _
    rw [add_error_eq]
    rfl

theorem getA_recordError_self (key : String) (de : Option String) (df : String)
    (errs : List (String × List String)) :
    getA (recordError key de df errs) key =
      some (Option.getD (getA errs key) [] ++ [Option.getD de df]) := by
  rw [recordError_eq, getA_insertA_self]

theorem getA_recordError_ne (key k' : String) (de : Option String) (df : String)
    (errs : List (String × List String)) (h : k' ≠ key) :
    getA (recordError key de df errs) k' = getA errs k' := by
  rw [recordError_eq, getA_insertA_ne _ _ _ _ h]

theorem isEmpty_iff_getA_none (l : List (String × List String)) :
    l.isEmpty = true ↔ ∀ k, getA l k = none := by
  cases l with
  | nil => simp [getA]
  | cons kv rest =>
    obtain ⟨k0, v0⟩ := kv
    simp only [List.isEmpty_cons]
    constructor
    · intro h; cases h
    · intro h
      have := h k0
      simp [getA] at this

/-! ### Invariants of the evaluation loops -/

theorem runRules_ok_getA_ne {key : String} {value : Json} {rules : List RuleType}
    {errs errs' : List (String × List String)} {k' : String}
    (h : runRules key value rules errs = Except.ok errs') (hne : k' ≠ key) :
    getA errs' k' = getA errs k' := by
  induction rules generalizing errs with
  | nil =>
    simp only [runRules] at h
    cases h
    rfl
  | cons rt rest ih =>
    simp only [runRules] at h
    cases hap : applyRule key rt.rule value with
    | error e => rw [hap] at h; cases h
    | ok r =>
      rw [hap] at h
      dsimp only at h
      by_cases hst : r.status = true
      · rw [if_pos hst] at h
        exact ih h
      · rw [if_neg hst] at h
        rw [ih h, getA_recordError_ne _ _ _ _ _ hne]

theorem runRules_ok_getA_self {key : String} {value : Json} {rules : List RuleType}
    {errs errs' : List (String × List String)}
    (h : runRules key value rules errs = Except.ok errs') :
    getA errs' key =
      if failMsgs key value rules = [] then getA errs key
      else some (Option.getD (getA errs key) [] ++ failMsgs key value rules) := by
  induction rules generalizing errs with
  | nil =>
    simp only [runRules] at h
    cases h
    simp [failMsgs]
  | cons rt rest ih =>
    simp only [runRules] at h
    cases hap : applyRule key rt.rule value with
    | error e => rw [hap] at h; cases h
    | ok r =>
      rw [hap] at h
      dsimp only at h
      have hro : ruleOutcome key value rt = some (r.status, Option.getD rt.error r.msg) := by
        simp [ruleOutcome, hap]
      by_cases hst : r.status = true
      · rw [if_pos hst] at h
        have hfm : failMsgs key value (rt :: rest) = failMsgs key value rest := by
          simp [failMsgs, hro, hst]
        rw [hfm]
        exact ih h
      · rw [if_neg hst] at h
        have hst' : r.status = false := by
          cases hb : r.status
          · rfl
          · exact absurd hb hst
        have hfm : failMsgs key value (rt :: rest) =
            Option.getD rt.error r.msg :: failMsgs key value rest := by
          simp [failMsgs, hro, hst']
        have hrec := getA_recordError_self key rt.error r.msg errs
        have ihh := ih h
        rw [hfm]
        by_cases hfr : failMsgs key value rest = []
        · rw [if_pos hfr] at ihh
          rw [ihh, hrec, if_neg (by simp)]
          simp [hfr]
        · rw [if_neg hfr] at ihh
          rw [ihh, hrec, if_neg (by simp)]
          simp [List.append_assoc]

theorem runRules_ok_nopanic {key : String} {value : Json} {rules : List RuleType}
    {errs errs' : List (String × List String)}
    (h : runRules key value rules errs = Except.ok errs') :
    ∀ rt ∈ rules, ∃ r, applyRule key rt.rule value = Except.ok r := by
  induction rules generalizing errs with
  | nil => intro rt hrt; cases hrt
  | cons rt0 rest ih =>
    intro rt hrt
    simp only [runRules] at h
    cases hap : applyRule key rt0.rule value with
    | error e => rw [hap] at h; cases h
    | ok r =>
      rw [hap] at h
      dsimp only at h
      rcases List.mem_cons.mp hrt with hrt | hrt
      · subst hrt; exact ⟨r, hap⟩
      · by_cases hst : r.status = true
        · rw [if_pos hst] at h; exact ih h rt hrt
        · rw [if_neg hst] at h; exact ih h rt hrt

theorem runDecls_ok_getA_ne {key : String} {value : Json} {decls : List RuleDeclaration}
    {errs errs' : List (String × List String)} {k' : String}
    (h : runDecls key value decls errs = Except.ok errs') (hne : k' ≠ key) :
    getA errs' k' = getA errs k' := by
  induction decls generalizing errs with
  | nil =>
    simp only [runDecls] at h
    cases h
    rfl
  | cons d rest ih =>
    simp only [runDecls] at h
    by_cases hf : d.field = key
    · rw [if_pos hf] at h
      cases hrr : runRules key value d.rules errs with
      | error e => rw [hrr] at h; cases h
      | ok e1 =>
        rw [hrr] at h
        dsimp only at h
        rw [ih h, runRules_ok_getA_ne hrr hne]
    · rw [if_neg hf] at h
      exact ih h

theorem runDecls_ok_getA_self {key : String} {value : Json} {decls : List RuleDeclaration}
    {errs errs' : List (String × List String)}
    (h : runDecls key value decls errs = Except.ok errs') :
    getA errs' key =
      if declsFailMsgs key value decls = [] then getA errs key
      else some (Option.getD (getA errs key) [] ++ declsFailMsgs key value decls) := by
  induction decls generalizing errs with
  | nil =>
    simp only [runDecls] at h
    cases h
    simp [declsFailMsgs]
  | cons d rest ih =>
    simp only [runDecls] at h
    by_cases hf : d.field = key
    · rw [if_pos hf] at h
      cases hrr : runRules key value d.rules errs with
      | error e => rw [hrr] at h; cases h
      | ok e1 =>
        rw [hrr] at h
        dsimp only at h
        have hdfm : declsFailMsgs key value (d :: rest) =
            failMsgs key value d.rules ++ declsFailMsgs key value rest := by
          simp [declsFailMsgs, hf]
        have h1 := runRules_ok_getA_self hrr
        have h2 := ih h
        rw [hdfm]
        by_cases hfm : failMsgs key value d.rules = []
        · rw [if_pos hfm] at h1
          by_cases hdr : declsFailMsgs key value rest = []
          · rw [if_pos hdr] at h2
            rw [if_pos (by simp [hfm, hdr]), h2, h1]
          · rw [if_neg hdr] at h2
            rw [if_neg (by simp [hdr]), h2, h1]
            simp [hfm]
        · rw [if_neg hfm] at h1
          by_cases hdr : declsFailMsgs key value rest = []
          · rw [if_pos hdr] at h2
            rw [if_neg (by simp [hfm]), h2, h1]
            simp [hdr]
          · rw [if_neg hdr] at h2
            rw [if_neg (by simp [hfm]), h2, h1]
            simp [List.append_assoc]
    · rw [if_neg hf] at h
      have hdfm : declsFailMsgs key value (d :: rest) = declsFailMsgs key value rest := by
        simp [declsFailMsgs, hf]
      rw [hdfm]
      exact ih h

theorem runDecls_ok_nopanic {key : String} {value : Json} {decls : List RuleDeclaration}
    {errs errs' : List (String × List String)}
    (h : runDecls key value decls errs = Except.ok errs') :
    ∀ d ∈ decls, d.field = key → ∀ rt ∈ d.rules, ∃ r, applyRule key rt.rule value = Except.ok r := by
  induction decls generalizing errs with
  | nil => intro d hd; cases hd
  | cons d0 rest ih =>
    intro d hd hdf rt hrt
    simp only [runDecls] at h
    rcases List.mem_cons.mp hd with hd | hd
    · subst hd
      rw [if_pos hdf] at h
      cases hrr : runRules key value d.rules errs with
      | error e => rw [hrr] at h; cases h
      | ok e1 => exact runRules_ok_nopanic hrr rt hrt
    · by_cases hf : d0.field = key
      · rw [if_pos hf] at h
        cases hrr : runRules key value d0.rules errs with
        | error e => rw [hrr] at h; cases h
        | ok e1 =>
          rw [hrr] at h
          dsimp only at h
          exact ih h d hd hdf rt hrt
      · rw [if_neg hf] at h
        exact ih h d hd hdf rt hrt

theorem runFields_ok_getA_notmem {map : List (String × Json)} {decls : List RuleDeclaration}
    {errs errs' : List (String × List String)} {k : String}
    (h : runFields map decls errs = Except.ok errs') (hk : k ∉ map.map Prod.fst) :
    getA errs' k = getA errs k := by
  induction map generalizing errs with
  | nil =>
    simp only [runFields] at h
    cases h
    rfl
  | cons kv rest ih =>
    obtain ⟨k0, v0⟩ := kv
    have hne : k ≠ k0 := by
      intro hh
      exact hk (by simp [hh])
    have hk' : k ∉ rest.map Prod.fst := fun hh => hk (by simp [hh])
    simp only [runFields] at h
    cases hrd : runDecls k0 v0 decls errs with
    | error e => rw [hrd] at h; cases h
    | ok e1 =>
      rw [hrd] at h
      dsimp only at h
      rw [ih h hk', runDecls_ok_getA_ne hrd hne]

theorem runFields_ok_getA_mem {map : List (String × Json)} {decls : List RuleDeclaration}
    {errs errs' : List (String × List String)} {k : String} {v : Json}
    (h : runFields map decls errs = Except.ok errs')
    (hnd : (map.map Prod.fst).Nodup) (hmem : (k, v) ∈ map) :
    getA errs' k =
      if declsFailMsgs k v decls = [] then getA errs k
      else some (Option.getD (getA errs k) [] ++ declsFailMsgs k v decls) := by
  induction map generalizing errs with
  | nil => cases hmem
  | cons kv rest ih =>
    obtain ⟨k0, v0⟩ := kv
    simp only [runFields] at h
    cases hrd : runDecls k0 v0 decls errs with
    | error e => rw [hrd] at h; cases h
    | ok e1 =>
      rw [hrd] at h
      dsimp only at h
      rcases List.mem_cons.mp hmem with heq | hmem'
      · have hk : k = k0 := congrArg Prod.fst heq
        have hv : v = v0 := congrArg Prod.snd heq
        subst hk
        subst hv
        have hrest : k ∉ rest.map Prod.fst := by
          have := hnd
          simp only [List.map_cons, List.nodup_cons] at this
          exact this.1
        rw [runFields_ok_getA_notmem h hrest]
        exact runDecls_ok_getA_self hrd
      · have hk0 : k ≠ k0 := by
          intro hh
          subst hh
          have hin : k ∈ rest.map Prod.fst := by
            exact List.mem_map.mpr ⟨(k, v), hmem', rfl⟩
          simp only [List.map_cons, List.nodup_cons] at hnd
          exact hnd.1 hin
        have hnd' : (rest.map Prod.fst).Nodup := by
          simp only [List.map_cons, List.nodup_cons] at hnd
          exact hnd.2
        rw [ih h hnd' hmem', runDecls_ok_getA_ne hrd hk0]

theorem runFields_ok_nopanic {map : List (String × Json)} {decls : List RuleDeclaration}
    {errs errs' : List (String × List String)}
    (h : runFields map decls errs = Except.ok errs') :
    ∀ kv ∈ map, ∀ d ∈ decls, d.field = kv.1 →
      ∀ rt ∈ d.rules, ∃ r, applyRule kv.1 rt.rule kv.2 = Except.ok r := by
  induction map generalizing errs with
  | nil => intro kv hkv; cases hkv
  | cons kv0 rest ih =>
    intro kv hkv
    obtain ⟨k0, v0⟩ := kv0
    simp only [runFields] at h
    cases hrd : runDecls k0 v0 decls errs with
    | error e => rw [hrd] at h; cases h
    | ok e1 =>
      rw [hrd] at h
      dsimp only at h
      rcases List.mem_cons.mp hkv with heq | hkv'
      · subst heq
        exact runDecls_ok_nopanic hrd
      · exact ih h kv hkv'

/-! ### Bridging lemmas between recorded messages and per-binding verdicts -/

theorem failMsgs_eq_nil_iff {key : String} {value : Json} {rules : List RuleType}
    (hnp : ∀ rt ∈ rules, ∃ r, applyRule key rt.rule value = Except.ok r) :
    (failMsgs key value rules = [] ↔ rules.all (bindingPasses key value) = true) := by
  induction rules with
  | nil => simp [failMsgs]
  | cons rt rest ih =>
    obtain ⟨r, hap⟩ := hnp rt (List.mem_cons_self rt rest)
    have hbp : bindingPasses key value rt = r.status := by
      simp [bindingPasses, hap]
    have hro : ruleOutcome key value rt = some (r.status, Option.getD rt.error r.msg) := by
      simp [ruleOutcome, hap]
    have ih' := ih (fun rt' hrt' => hnp rt' (List.mem_cons_of_mem rt hrt'))
    cases hst : r.status
    · simp [failMsgs, hro, hst, List.all_cons, hbp]
    · simp [failMsgs, hro, hst, List.all_cons, hbp, ih']

theorem failMsgs_ne_nil_iff {key : String} {value : Json} {rules : List RuleType}
    (hnp : ∀ rt ∈ rules, ∃ r, applyRule key rt.rule value = Except.ok r) :
    (failMsgs key value rules ≠ [] ↔ ∃ rt ∈ rules, bindingPasses key value rt = false) := by
  constructor
  · intro h
    by_contra hc
    push_neg at hc
    apply h
    rw [failMsgs_eq_nil_iff hnp, List.all_eq_true]
    intro rt hrt
    have hc' := hc rt hrt
    cases hb : bindingPasses key value rt
    · exact absurd hb hc'
    · rfl
  · rintro ⟨rt, hrt, hbp⟩ hnil
    have hall := (failMsgs_eq_nil_iff hnp).mp hnil
    rw [List.all_eq_true] at hall
    have hfalse := hall rt hrt
    rw [hbp] at hfalse
    simp at hfalse

theorem declsFailMsgs_eq_nil_iff {key : String} {value : Json} {decls : List RuleDeclaration}
    (hnp : ∀ d ∈ decls, d.field = key → ∀ rt ∈ d.rules, ∃ r, applyRule key rt.rule value = Except.ok r) :
    (declsFailMsgs key value decls = [] ↔ decls.all (declPasses key value) = true) := by
  induction decls with
  | nil => simp [declsFailMsgs]
  | cons d rest ih =>
    have ih' := ih (fun d' hd' => hnp d' (List.mem_cons_of_mem d hd'))
    by_cases hf : d.field = key
    · have hnp' := hnp d (List.mem_cons_self d rest) hf
      have hdp : declPasses key value d = d.rules.all (bindingPasses key value) := by
        simp [declPasses, hf]
      simp only [declsFailMsgs, if_pos hf, List.all_cons, List.append_eq_nil,
        Bool.and_eq_true, hdp, ih']
      rw [failMsgs_eq_nil_iff hnp']
    · have hdp : declPasses key value d = true := by
        simp [declPasses, hf]
      simp [declsFailMsgs, if_neg hf, List.all_cons, hdp, ih']

theorem declsFailMsgs_ne_nil_iff {key : String} {value : Json} {decls : List RuleDeclaration}
    (hnp : ∀ d ∈ decls, d.field = key → ∀ rt ∈ d.rules, ∃ r, applyRule key rt.rule value = Except.ok r) :
    (declsFailMsgs key value decls ≠ [] ↔
      ∃ d ∈ decls, d.field = key ∧ ∃ rt ∈ d.rules, bindingPasses key value rt = false) := by
  induction decls with
  | nil => simp [declsFailMsgs]
  | cons d rest ih =>
    have ih' := ih (fun d' hd' => hnp d' (List.mem_cons_of_mem d hd'))
    by_cases hf : d.field = key
    · have hnp' := hnp d (List.mem_cons_self d rest) hf
      simp only [declsFailMsgs, if_pos hf, ne_eq, List.append_eq_nil, not_and]
      constructor
      · intro h
        by_cases hfm : failMsgs key value d.rules = []
        · have hr : declsFailMsgs key value rest ≠ [] := fun hh => (h hfm) hh
          obtain ⟨d', hd', hfd', hrt⟩ := ih'.mp hr
          exact ⟨d', List.mem_cons_of_mem d hd', hfd', hrt⟩
        · obtain ⟨rt, hrt, hbp⟩ := (failMsgs_ne_nil_iff hnp').mp hfm
          exact ⟨d, List.mem_cons_self d rest, hf, rt, hrt, hbp⟩
      · rintro ⟨d', hd', hfd', rt, hrt, hbp⟩ h
        rcases List.mem_cons.mp hd' with heq | hd''
        · subst heq
          have : failMsgs key value d'.rules ≠ [] :=
            (failMsgs_ne_nil_iff hnp').mpr ⟨rt, hrt, hbp⟩
          intro hh
          exact this h
        · intro hh
          exact (ih'.mpr ⟨d', hd'', hfd', rt, hrt, hbp⟩) hh
    · simp only [declsFailMsgs, if_neg hf, List.nil_append]
      rw [ih']
      constructor
      · rintro ⟨d', hd', hfd', hrt⟩
        exact ⟨d', List.mem_cons_of_mem d hd', hfd', hrt⟩
      · rintro ⟨d', hd', hfd', hrt⟩
        rcases List.mem_cons.mp hd' with heq | hd''
        · subst heq
          exact absurd hfd' hf
        · exact ⟨d', hd'', hfd', hrt⟩

theorem declsFailMsgs_eq_flatten_filter (key : String) (value : Json)
    (decls : List RuleDeclaration) :
    declsFailMsgs key value decls =
      ((decls.filter fun d => d.field == key).map fun d => failMsgs key value d.rules).flatten := by
  induction decls with
  | nil => simp [declsFailMsgs]
  | cons d rest ih =>
    by_cases hf : d.field = key
    · simp [declsFailMsgs, List.filter_cons, hf, ih]
    · simp [declsFailMsgs, List.filter_cons, hf, ih]

theorem validate_ok_elim {map : List (String × Json)} {decls : List RuleDeclaration}
    {res : VResult} (h : validate (some (Json.obj map)) decls = Except.ok res) :
    ∃ errs, runFields map decls [] = Except.ok errs ∧
      res = (if errs.isEmpty then VResult.ok else VResult.err errs) := by
  simp only [validate] at h
  cases hrf : runFields map decls [] with
  | error e => rw [hrf] at h; cases h
  | ok errs =>
    rw [hrf] at h
    dsimp only at h
    cases h
    exact ⟨errs, rfl, rfl⟩

theorem foldl_passStep (v : List Char) (acc : PassFlags) :
    v.foldl passStep acc =
      ⟨acc.has_whitespace || v.any rustIsWhitespace,
       acc.has_upper || v.any rustIsUppercase,
       acc.has_lower || v.any rustIsLowercase,
       acc.has_digit || v.any rustIsDigit10,
       acc.has_special_char || v.any fun c => !rustIsAsciiAlphanumeric c⟩ := by
  induction v generalizing acc with
  | nil =>
    obtain ⟨w, u, l, d, s⟩ := acc
    simp
  | cons c cs ih =>
    rw [List.foldl_cons, ih]
    obtain ⟨w, u, l, d, s⟩ := acc
    simp [passStep, List.any_cons, Bool.or_assoc]

/-- C5: for every string value `v` and minimum length `n`, `Password(n)` passes
iff `v` has (byte) length at least `n`, contains at least one uppercase letter,
one lowercase letter, one digit, one character that is neither a letter nor a
digit, and no whitespace; a null value fails.  (Character classes are the
embedding's ASCII models of the Rust predicates.) -/
theorem password_characterization (field : String) (v : List Char) (n : Nat) :
    password field (Json.str v) n =
      Except.ok ⟨decide (strBytes v ≥ n ∧ (∃ c ∈ v, rustIsUppercase c = true) ∧
        (∃ c ∈ v, rustIsLowercase c = true) ∧ (∃ c ∈ v, rustIsDigit10 c = true) ∧
        (∃ c ∈ v, rustIsAsciiAlphanumeric c = false) ∧
        (∀ c ∈ v, rustIsWhitespace c = false)), passwordErr field n⟩ ∧
    password field Json.null n = Except.ok ⟨false, passwordErr field n⟩ := by
  constructor
  · simp only [password, Json.isNull, Bool.false_eq_true, if_false, extractString,
      Except.ok.injEq, InnerValidationResult.mk.injEq]
    refine ⟨?_, trivial⟩
    rw [foldl_passStep]
    apply Bool.eq_iff_iff.mpr
    simp only [Bool.and_eq_true, Bool.not_eq_true', Bool.not_eq_true, List.any_eq_true, List.any_eq_false,
      Bool.false_or, decide_eq_true_eq]
    constructor
    · rintro ⟨⟨⟨⟨⟨hws, hup⟩, hlo⟩, hdi⟩, hsp⟩, hlen⟩
      refine ⟨hlen, hup, hlo, hdi, ?_, hws⟩
      obtain ⟨c, hc, hcs⟩ := hsp
      exact ⟨c, hc, by simpa using hcs⟩
    · rintro ⟨hlen, hup, hlo, hdi, ⟨c, hc, hcs⟩, hws⟩
      exact ⟨⟨⟨⟨⟨hws, hup⟩, hlo⟩, hdi⟩, ⟨c, hc, by simpa using hcs⟩⟩, hlen⟩
  · rfl

/-- C6: `LengthRange(mn,mx)` passes iff the coerced string's byte length is
strictly between `mn` and `mx`, `SizeRange(mn,mx)` passes iff the coerced
integer is strictly between `mn` and `mx` (exclusive at both ends), and a null
value fails both. -/
theorem range_strict_exclusive (field : String) (mn mx : Int) :
    (∀ v : List Char, range field (Json.str v) mn mx RangeType.Length =
      Except.ok ⟨decide (mn < (strBytes v : Int) ∧ (strBytes v : Int) < mx),
        rangeErr field mn mx RangeType.Length⟩) ∧
    (∀ i : Int, range field (Json.num i) mn mx RangeType.Size =
      Except.ok ⟨decide (mn < i ∧ i < mx), rangeErr field mn mx RangeType.Size⟩) ∧
    (∀ rt : RangeType, range field Json.null mn mx rt =
      Except.ok ⟨false, rangeErr field mn mx rt⟩) := by
  refine ⟨?_, ?_, ?_⟩
  · intro v
    simp only [range, Json.isNull, Bool.false_eq_true, if_false, extractString,
      Except.ok.injEq, InnerValidationResult.mk.injEq]
    refine ⟨?_, trivial⟩
    rw [Bool.decide_and]
    rfl
  · intro i
    simp only [range, Json.isNull, Bool.false_eq_true, if_false, extractInt,
      Except.ok.injEq, InnerValidationResult.mk.injEq]
    refine ⟨?_, trivial⟩
    rw [Bool.decide_and]
  · intro rt
    cases rt <;> rfl

/-- C4: the Bool checker's verdict on a boolean value is the coerced boolean
itself.  However, on a null value the checker does not fail with an error
message as the specification claims: `check_bool` has no null guard, so the
coercion panics (`extract_value`'s `expect`), modelled here as `Except.error`. -/
theorem check_bool_verdict_and_null_panic :
    (∀ (field : String) (b : Bool),
      check_bool field (Json.bool b) = Except.ok ⟨b, boolErr field⟩) ∧
    check_bool "allow" Json.null = Except.error "failed to extract result" := by
  exact ⟨fun field b => rfl, rfl⟩

/-- C7: a failing binding appends exactly one error string to the field's
list: the user-defined message when one was supplied, otherwise the checker's
default message — never both.  `add_error` appends that single string, and the
recording block of `validate` (`recordError`) extends exactly the field's
entry with it. -/
theorem failing_binding_single_message (key : String) (defined_err : Option String)
    (default_err : String) (error_list : List String)
    (errs : List (String × List String)) :
    add_error defined_err default_err error_list =
      error_list ++ [Option.getD defined_err default_err] ∧
    getA (recordError key defined_err default_err errs) key =
      some (Option.getD (getA errs key) [] ++ [Option.getD defined_err default_err]) := by
  exact ⟨add_error_eq defined_err default_err error_list,
    getA_recordError_self key defined_err default_err errs⟩

theorem extractString_error {v : Json} (hstr : v.isStr = false) :
    extractString v = Except.error "failed to extract result" := by
  cases v <;> first
    | rfl
    | simp [Json.isStr] at hstr

/-- C2 counterexample: a length rule applied to a boolean value (a value
present but of the wrong shape) does not produce a failed verdict carrying an
incompatibility message — the coercion inside the checker panics
(`expect("failed to extract result")`), modelled as an aborting error. -/
theorem length_on_bool_panics :
    length "age" 5 (Json.bool true) LengthType.Exact =
      Except.error "failed to extract result" := rfl

/-- C2 (amended): for a field whose value is present but not a string, a
length rule does not report a per-field failure; the checker's coercion panics
with `failed to extract result` and `validate` aborts with that panic instead
of continuing with the remaining bindings and fields. -/
theorem coercion_failure_aborts (field : String) (n : Nat) (lt : LengthType) (v : Json)
    (hnull : v.isNull = false) (hstr : v.isStr = false) :
    length field n v lt = Except.error "failed to extract result" ∧
    validate (some (Json.obj [(field, v)])) [⟨field, [⟨ValidatorRule.Length n, none⟩]⟩] =
      Except.error "failed to extract result" := by
  have h1 : length field n v lt = Except.error "failed to extract result" := by
    simp only [length, hnull, Bool.false_eq_true, if_false, extractString_error hstr]
  refine ⟨h1, ?_⟩
  have h2 : applyRule field (ValidatorRule.Length n) v =
      Except.error "failed to extract result" := by
    simp only [applyRule]
    cases lt with
    | Exact => exact h1
    | Max =>
      simp only [length, hnull, Bool.false_eq_true, if_false, extractString_error hstr]
    | Min =>
      simp only [length, hnull, Bool.false_eq_true, if_false, extractString_error hstr]
  simp only [validate, runFields, runDecls, runRules, h2, eq_self_iff_true, if_true]

/-- C3: when the input record does not convert to an object-shaped value,
`validate` returns the success outcome with zero recorded errors, regardless
of how many declarations and rules were supplied. -/
theorem nonobject_input_validates_ok (data : Option Json)
    (decls : List RuleDeclaration) (h : convertsToObject data = false) :
    validate data decls = Except.ok VResult.ok := by
  cases data with
  | none => rfl
  | some j =>
    cases j with
    | obj m => simp [convertsToObject] at h
    | null => rfl
    | bool b => rfl
    | num n => rfl
    | str s => rfl
    | arr a => rfl

/-- Witness for C3 at a concrete non-object record with a non-trivial
declaration list. -/
theorem nonobject_input_validates_ok_witness :
    validate (some (Json.bool true)) [⟨"x", [⟨ValidatorRule.Required, none⟩]⟩] =
      Except.ok VResult.ok :=
  nonobject_input_validates_ok (some (Json.bool true))
    [⟨"x", [⟨ValidatorRule.Required, none⟩]⟩] rfl

/-- Witness for C2 (amended) at a boolean value under an exact length rule. -/
theorem coercion_failure_aborts_witness :
    length "age" 7 (Json.bool true) LengthType.Min = Except.error "failed to extract result" ∧
    validate (some (Json.obj [("age", Json.bool true)]))
      [⟨"age", [⟨ValidatorRule.Length 7, none⟩]⟩] =
      Except.error "failed to extract result" := by
  have h := coercion_failure_aborts "age" 7 LengthType.Min (Json.bool true) rfl rfl
  exact ⟨h.1, h.2⟩

/-- C9: for a field name not present in the converted value tree — because the
object lacks the field or because the record is not object-shaped — `validate`
records no errors for that field, regardless of the declared rules. -/
theorem absent_field_no_errors (data : Option Json) (decls : List RuleDeclaration)
    (f : String) (res : VResult)
    (habs : ∀ map, data = some (Json.obj map) → f ∉ map.map Prod.fst)
    (hres : validate data decls = Except.ok res) :
    errorsFor res f = none := by
  by_cases hobj : ∃ map, data = some (Json.obj map)
  · obtain ⟨map, rfl⟩ := hobj
    obtain ⟨errs, hrf, hresit⟩ := validate_ok_elim hres
    have hget : getA errs f = getA [] f := runFields_ok_getA_notmem hrf (habs map rfl)
    subst hresit
    by_cases hemp : errs.isEmpty
    · rw [if_pos hemp]; rfl
    · rw [if_neg hemp]
      show getA errs f = none
      rw [hget]; rfl
  · have hv : validate data decls = Except.ok VResult.ok := by
      cases data with
      | none => rfl
      | some j =>
        cases j with
        | obj m => exact absurd ⟨m, rfl⟩ hobj
        | null => rfl
        | bool b => rfl
        | num n => rfl
        | str s => rfl
        | arr a => rfl
    rw [hv] at hres
    injection hres with h
    subst h
    rfl

/-- Witness for C9: an object that lacks the declared field "b". -/
theorem absent_field_no_errors_witness : errorsFor VResult.ok "b" = none :=
  absent_field_no_errors (some (Json.obj [("a", Json.null)]))
    [⟨"b", [⟨ValidatorRule.Required, none⟩]⟩] "b" VResult.ok
    (by
      intro map hmap
      injection hmap with h
      injection h with h2
      subst h2
      decide) rfl

/-- C1 counterexample: field "a" holds a string checked by a `Bool` rule and
field "b" holds null checked by a `Required` rule.  The coercion for "a"
panics, so `validate` aborts: it returns neither success nor the failure
outcome even though the (never evaluated) binding on "b" has a failing
verdict, and that failing binding contributes no error — evaluation is
short-circuited by the panic. -/
theorem validate_shortcircuits_on_panic :
    validate (some (Json.obj [("a", Json.str ['x']), ("b", Json.null)]))
      [⟨"a", [⟨ValidatorRule.Bool, none⟩]⟩, ⟨"b", [⟨ValidatorRule.Required, none⟩]⟩] =
      Except.error "failed to extract result" ∧
    bindingPasses "b" Json.null ⟨ValidatorRule.Required, none⟩ = false := ⟨rfl, rfl⟩

/-- C1 (amended): for every record that converts to an object (its field names
are distinct) and every list of declarations on which no checker coercion
panics — equivalently, whenever `validate` returns an outcome at all — the
outcome is success iff the logical AND of all per-binding verdicts is true
(nothing is short-circuited in such a run), and in the failure outcome every
field with failing bindings carries exactly their messages. -/
theorem validate_success_iff_all_pass (map : List (String × Json))
    (decls : List RuleDeclaration) (res : VResult)
    (hnd : (map.map Prod.fst).Nodup)
    (hres : validate (some (Json.obj map)) decls = Except.ok res) :
    (res = VResult.ok ↔ allPass map decls = true) ∧
    (∀ m, res = VResult.err m → ∀ kv ∈ map,
      declsFailMsgs kv.1 kv.2 decls ≠ [] →
        getA m kv.1 = some (declsFailMsgs kv.1 kv.2 decls)) := by
  obtain ⟨errs, hrf, hresit⟩ := validate_ok_elim hres
  have hnp := runFields_ok_nopanic hrf
  have hA : errs.isEmpty = true ↔ ∀ kv ∈ map, declsFailMsgs kv.1 kv.2 decls = [] := by
    rw [isEmpty_iff_getA_none]
    constructor
    · intro h kv hkv
      have hg := runFields_ok_getA_mem hrf hnd (show (kv.1, kv.2) ∈ map by simpa using hkv)
      by_contra hne
      rw [if_neg hne] at hg
      rw [h kv.1] at hg
      cases hg
    · intro h k
      by_cases hk : k ∈ map.map Prod.fst
      · obtain ⟨kv, hkv, hfst⟩ := List.mem_map.mp hk
        subst hfst
        have hg := runFields_ok_getA_mem hrf hnd (show (kv.1, kv.2) ∈ map by simpa using hkv)
        rw [if_pos (h kv hkv)] at hg
        rw [hg]
        rfl
      · rw [runFields_ok_getA_notmem hrf hk]
        rfl
  have hB : allPass map decls = true ↔ ∀ kv ∈ map, declsFailMsgs kv.1 kv.2 decls = [] := by
    rw [allPass, List.all_eq_true]
    apply forall_congr'
    intro kv
    apply imp_congr_right
    intro hkv
    exact (declsFailMsgs_eq_nil_iff (hnp kv hkv)).symm
  subst hresit
  constructor
  · by_cases hemp : errs.isEmpty
    · rw [if_pos hemp]
      constructor
      · intro _
        exact hB.mpr (hA.mp hemp)
      · intro _
        rfl
    · rw [if_neg hemp]
      constructor
      · intro hok
        cases hok
      · intro hap
        exact absurd (hA.mpr (hB.mp hap)) hemp
  · intro m hm kv hkv hdfm
    by_cases hemp : errs.isEmpty
    · rw [if_pos hemp] at hm
      cases hm
    · rw [if_neg hemp] at hm
      injection hm with hm'
      subst hm'
      have hg := runFields_ok_getA_mem hrf hnd (show (kv.1, kv.2) ∈ map by simpa using hkv)
      rw [if_neg hdfm] at hg
      rw [hg]
      rfl

/-- Witness for C1 (amended): a null `Required` field produces the failure
outcome, and the instantiated equivalence and error-characterization hold. -/
theorem validate_success_iff_all_pass_witness :
    (VResult.err [("a", ["'a' field cannot be null."])] = VResult.ok ↔
      allPass [("a", Json.null)] [⟨"a", [⟨ValidatorRule.Required, none⟩]⟩] = true) ∧
    (∀ m, VResult.err [("a", ["'a' field cannot be null."])] = VResult.err m →
      ∀ kv ∈ [("a", Json.null)],
        declsFailMsgs kv.1 kv.2 [⟨"a", [⟨ValidatorRule.Required, none⟩]⟩] ≠ [] →
          getA m kv.1 =
            some (declsFailMsgs kv.1 kv.2 [⟨"a", [⟨ValidatorRule.Required, none⟩]⟩])) :=
  validate_success_iff_all_pass [("a", Json.null)] [⟨"a", [⟨ValidatorRule.Required, none⟩]⟩]
    (VResult.err [("a", ["'a' field cannot be null."])]) (by simp) rfl

/-- C8: if a field's declarations consist of exactly two bindings and both
fail (with messages `m1` and `m2`, each the custom message when supplied,
otherwise the default), the failure outcome's error list for that field is
exactly `[m1, m2]`, in binding declaration order. -/
theorem two_failing_bindings_two_errors (map : List (String × Json))
    (decls : List RuleDeclaration) (k : String) (v : Json) (rt1 rt2 : RuleType)
    (m1 m2 : String) (res : VResult)
    (hnd : (map.map Prod.fst).Nodup) (hmem : (k, v) ∈ map)
    (hfilter : decls.filter (fun d => d.field == k) = [⟨k, [rt1, rt2]⟩])
    (h1 : ruleOutcome k v rt1 = some (false, m1))
    (h2 : ruleOutcome k v rt2 = some (false, m2))
    (hres : validate (some (Json.obj map)) decls = Except.ok res) :
    ∃ m, res = VResult.err m ∧ getA m k = some [m1, m2] := by
  obtain ⟨errs, hrf, hresit⟩ := validate_ok_elim hres
  have hdfm : declsFailMsgs k v decls = [m1, m2] := by
    rw [declsFailMsgs_eq_flatten_filter, hfilter]
    simp [failMsgs, h1, h2]
  have hg := runFields_ok_getA_mem hrf hnd hmem
  rw [hdfm, if_neg (by simp)] at hg
  have hg' : getA errs k = some [m1, m2] := by
    rw [hg]
    rfl
  have hne : ¬errs.isEmpty = true := by
    intro hemp
    rw [isEmpty_iff_getA_none] at hemp
    rw [hemp k] at hg'
    cases hg'
  subst hresit
  rw [if_neg hne]
  exact ⟨errs, rfl, hg'⟩

/-- Witness for C8: the `bio` field is null with a `Required` binding (default
message) and a `MinLength` binding (custom message); both fail and exactly the
two messages appear in declaration order. -/
theorem two_failing_bindings_two_errors_witness :
    ∃ m, VResult.err [("bio", ["'bio' field cannot be null.", "Bio is too short!"])] =
        VResult.err m ∧
      getA m "bio" = some ["'bio' field cannot be null.", "Bio is too short!"] :=
  two_failing_bindings_two_errors [("bio", Json.null)]
    [⟨"bio", [⟨ValidatorRule.Required, none⟩,
      ⟨ValidatorRule.MinLength 12, some "Bio is too short!"⟩]⟩]
    "bio" Json.null ⟨ValidatorRule.Required, none⟩
    ⟨ValidatorRule.MinLength 12, some "Bio is too short!"⟩
    "'bio' field cannot be null." "Bio is too short!"
    (VResult.err [("bio", ["'bio' field cannot be null.", "Bio is too short!"])])
    (by simp) (List.mem_cons_self _ _) rfl rfl rfl rfl

/-- C10: whenever `validate` returns the failure outcome, the error map is
non-empty, every field name in it maps to a non-empty list of messages, and a
field key has an entry iff at least one of that field's bindings was evaluated
to a failing verdict. -/
theorem error_map_wellformed (map : List (String × Json)) (decls : List RuleDeclaration)
    (m : List (String × List String))
    (hnd : (map.map Prod.fst).Nodup)
    (hres : validate (some (Json.obj map)) decls = Except.ok (VResult.err m)) :
    m ≠ [] ∧ (∀ k l, getA m k = some l → l ≠ []) ∧
    (∀ k, (getA m k).isSome = true ↔
      ∃ v, (k, v) ∈ map ∧ ∃ d ∈ decls, d.field = k ∧
        ∃ rt ∈ d.rules, bindingPasses k v rt = false) := by
  obtain ⟨errs, hrf, hresit⟩ := validate_ok_elim hres
  have hnp := runFields_ok_nopanic hrf
  by_cases hemp : errs.isEmpty
  · rw [if_pos hemp] at hresit
    cases hresit
  · rw [if_neg hemp] at hresit
    injection hresit with hm
    subst hm
    refine ⟨?_, ?_, ?_⟩
    · intro hnil
      exact hemp (by rw [hnil]; rfl)
    · intro k l hget
      by_cases hk : k ∈ map.map Prod.fst
      · obtain ⟨kv, hkv, hfst⟩ := List.mem_map.mp hk
        subst hfst
        have hg := runFields_ok_getA_mem hrf hnd (show (kv.1, kv.2) ∈ map by simpa using hkv)
        by_cases hdfm : declsFailMsgs kv.1 kv.2 decls = []
        · rw [if_pos hdfm] at hg
          rw [hg] at hget
          cases hget
        · rw [if_neg hdfm] at hg
          rw [hg] at hget
          injection hget with hl
          rw [← hl]
          simp [hdfm]
      · rw [runFields_ok_getA_notmem hrf hk] at hget
        cases hget
    · intro k
      constructor
      · intro hsome
        by_cases hk : k ∈ map.map Prod.fst
        · obtain ⟨kv, hkv, hfst⟩ := List.mem_map.mp hk
          subst hfst
          have hg := runFields_ok_getA_mem hrf hnd (show (kv.1, kv.2) ∈ map by simpa using hkv)
          by_cases hdfm : declsFailMsgs kv.1 kv.2 decls = []
          · rw [if_pos hdfm] at hg
            rw [hg] at hsome
            simp [getA] at hsome
          · obtain ⟨d, hd, hdf, rt, hrt, hbp⟩ :=
              (declsFailMsgs_ne_nil_iff (hnp kv hkv)).mp hdfm
            exact ⟨kv.2, by simpa using hkv, d, hd, hdf, rt, hrt, hbp⟩
        · rw [runFields_ok_getA_notmem hrf hk] at hsome
          simp [getA] at hsome
      · rintro ⟨v, hkv, d, hd, hdf, rt, hrt, hbp⟩
        have hdfm : declsFailMsgs k v decls ≠ [] :=
          (declsFailMsgs_ne_nil_iff (hnp (k, v) hkv)).mpr ⟨d, hd, hdf, rt, hrt, hbp⟩
        have hg := runFields_ok_getA_mem hrf hnd hkv
        rw [if_neg hdfm] at hg
        rw [hg]
        rfl

/-- Witness for C10 at a concrete failing run. -/
theorem error_map_wellformed_witness :
    [("a", ["'a' field cannot be null."])] ≠ ([] : List (String × List String)) ∧
    (∀ k l, getA [("a", ["'a' field cannot be null."])] k = some l → l ≠ []) ∧
    (∀ k, (getA [("a", ["'a' field cannot be null."])] k).isSome = true ↔
      ∃ v, (k, v) ∈ [("a", Json.null)] ∧
        ∃ d ∈ [(⟨"a", [⟨ValidatorRule.Required, none⟩]⟩ : RuleDeclaration)], d.field = k ∧
          ∃ rt ∈ d.rules, bindingPasses k v rt = false) :=
  error_map_wellformed [("a", Json.null)] [⟨"a", [⟨ValidatorRule.Required, none⟩]⟩]
    [("a", ["'a' field cannot be null."])] (by simp) rfl
